import Mathlib

/-!
Verification of the SpeechBrain data-augmentation pipeline
(`speechbrain/augment/augmenter.py` and `speechbrain/augment/freq_domain.py`)
against its natural-language specification.

Modelling conventions:
* Batch tensors are modelled rank-3 `[batch, time, fea]` (the spec's data
  model), as a structure carrying the three dimensions and a total data
  function; entries outside the declared dimensions are irrelevant.
* Tensor values are rationals (exact arithmetic); the fractional length
  vectors are `List ℚ`.
* Python slicing `x[a:b]` with non-negative bounds is `drop`/`take`;
  fancy indexing `x[idx]` is modelled fallibly (out-of-bounds indices give
  an `Except.error`, as `torch` raises).
* Randomness (`torch.randint`, `random.shuffle`, per-transform draws) is
  threaded explicitly: each sampled quantity is a parameter of the
  function that the source code samples it in, and theorems quantify over
  all values in the sampled range.
* `torch.linspace(0, B, n+1).to(torch.int)` is modelled with exact
  rational spacing truncated towards zero, i.e. boundary `k ↦ k * B / n`
  in natural-number division (PyTorch's linspace produces exact
  endpoints; interior points are the evenly spaced values).
-/

/-- Rank-3 batch tensor `[batch, time, fea]`.  `data b t f` is the entry at
batch index `b`, time index `t`, feature index `f`; only indices below the
declared dimensions are meaningful. -/
structure Tensor3 where
  batch : ℕ
  time : ℕ
  fea : ℕ
  data : ℕ → ℕ → ℕ → ℚ

/-- Python slice `x[a:b]` along the batch axis (non-negative bounds). -/
def sliceBatch (x : Tensor3) (a b : ℕ) : Tensor3 :=
  ⟨min b x.batch - a, x.time, x.fea, fun i t f => x.data (a + i) t f⟩

/-- Python slice `l[a:b]` on a 1-D tensor. -/
def sliceLens (l : List ℚ) (a b : ℕ) : List ℚ :=
  (l.drop a).take (b - a)

/-- Python slice `l[a:b]` where `b` may be `None` (slice to the end). -/
def sliceListOpt {α : Type} (l : List α) (a : ℕ) : Option ℕ → List α
  | none => l.drop a
  | some b => (l.drop a).take (b - a)

/-- Fancy indexing `x[idx, ...]` along the batch axis; `torch` raises on an
out-of-bounds index. -/
def tIndex (x : Tensor3) (idx : List ℕ) : Except String Tensor3 :=
  if idx.all (· < x.batch) then
    .ok ⟨idx.length, x.time, x.fea, fun i t f => x.data (idx.getD i 0) t f⟩
  else .error "index out of bounds"

/-- Fancy indexing `l[idx]` on a 1-D tensor; `torch` raises on an
out-of-bounds index. -/
def lIndex (l : List ℚ) (idx : List ℕ) : Except String (List ℚ) :=
  if idx.all (· < l.length) then .ok (idx.map (fun i => l.getD i 0))
  else .error "index out of bounds"

/-- `torch.nn.functional.pad(x, (0, k))`: right-pads the LAST axis (the
feature axis of a rank-3 tensor) with `k` zeros. -/
def padLast (x : Tensor3) (k : ℕ) : Tensor3 :=
  ⟨x.batch, x.time, x.fea + k, fun b t f => if f < x.fea then x.data b t f else 0⟩

/-- `torch.cat([a, b], dim=0)` for two tensors: all dimensions other than
the batch axis must agree. -/
def catBatch2 (a b : Tensor3) : Except String Tensor3 :=
  if a.time = b.time ∧ a.fea = b.fea then
    .ok ⟨a.batch + b.batch, a.time, a.fea,
      fun i t f => if i < a.batch then a.data i t f else b.data (i - a.batch) t f⟩
  else .error "Sizes of tensors must match except in dimension 0"

/-- `torch.cat(lst, dim=0)`; raises on an empty list. -/
def catBatch : List Tensor3 → Except String Tensor3
  | [] => .error "torch.cat(): expected a non-empty list of Tensors"
  | [x] => .ok x
  | x :: y :: rest =>
    match catBatch (y :: rest) with
    | .error e => .error e
    | .ok r => catBatch2 x r

/-- `Augmenter.concatenate_outputs`: finds the maximum `shape[1]` (temporal
extent), rescales every length vector by `shape[1] / max_len` (Python true
division; `ZeroDivisionError` when `max_len` is zero), pads every tensor
with `F.pad(output, (0, max_len - output.shape[1]))` — note this pads the
LAST axis — and concatenates tensors and lengths.  `max()` of an empty list
raises. -/
def Augmenter.concatenate_outputs (augment_lst : List Tensor3)
    (augment_len_lst : List (List ℚ)) : Except String (Tensor3 × List ℚ) :=
  match augment_lst with
  | [] => .error "max() arg is an empty sequence"
  | _ :: _ =>
    let max_len := (augment_lst.map Tensor3.time).foldl max 0
    if max_len = 0 then .error "ZeroDivisionError: division by zero"
    else
      let lens' := (augment_len_lst.zip augment_lst).map
        (fun p => p.1.map (fun v => v * ((p.2.time : ℚ) / (max_len : ℚ))))
      let padded := augment_lst.map (fun o => padLast o (max_len - o.time))
      match catBatch padded with
      | .error e => .error e
      | .ok out => .ok (out, lens'.flatten)

/-- Result of calling a transform: in Python, a transform returns either a
bare tensor, a 2-tuple `(tensor, lengths)`, or (erroneously) a tuple of
some other arity. -/
inductive TOut where
  | single : Tensor3 → TOut
  | pair : Tensor3 → List ℚ → TOut
  | other : TOut

/-- An augmentation transform as registered in the `Augmenter`.
`requiresLengths` is the stored `self.require_lengths[name]` flag (in the
source it is discovered once via signature introspection in
`speechbrain.utils.callchains.lengths_arg_exists`, which is outside the
repository slice; the spec declares it as a per-transform capability flag).
`apply` receives the lengths argument as `some` exactly when the caller
passes it. -/
structure Transform where
  requiresLengths : Bool
  apply : Tensor3 → Option (List ℚ) → TOut

/-- Boundary `idx_startstop[k]` of `torch.linspace(0, B, n + 1).to(torch.int)`:
the evenly spaced value `k * B / n` truncated to an integer. -/
def fixedBsBound (B n k : ℕ) : ℕ := k * B / n

/-- The index partition `torch.arange(B)[idx_startstop[k] : idx_startstop[k+1]]`
assigned to the `k`-th of `n` selected transforms in
`parallel_augment_fixed_bs` mode. -/
def fixedBsIdx (B n k : ℕ) : List ℕ :=
  ((List.range B).drop (fixedBsBound B n k)).take
    (fixedBsBound B n (k + 1) - fixedBsBound B n k)

/-- Loop-carried variables of the `for k, augment_name in
enumerate(selected_augmentations)` loop in `Augmenter.augment`:
`next_input`/`next_lengths` thread the sequential chain, `output`/
`output_lengths` collect the parallel branches, `out` is the last raw
transform output (`None` models the Python name being unbound before the
first iteration), and `out_lengths` is the last raw returned lengths
(initialised to `lengths`). -/
structure AugLoopState where
  next_input : Tensor3
  next_lengths : List ℚ
  output : List Tensor3
  output_lengths : List (List ℚ)
  out : Option Tensor3
  out_lengths : List ℚ

/-- Configuration fields of an `Augmenter` instance, together with the
instance attributes that `forward` mutates (`augment_end_index` and
`concat_end_index` start as `None` when not configured; `N_augment` and
`num_augmentations` are set during `forward`). -/
structure Augmenter where
  parallel_augment : Bool
  parallel_augment_fixed_bs : Bool
  concat_original : Bool
  min_augmentations : ℕ
  max_augmentations : ℕ
  shuffle_augmentations : Bool
  repeat_augment : ℕ
  augment_start_index : ℕ
  augment_end_index : Option ℕ
  concat_start_index : ℕ
  concat_end_index : Option ℕ
  transforms : List Transform
  N_augment : Option ℕ := none
  num_augmentations : Option ℕ := none

/-- Body of the loop in `Augmenter.augment` (source lines 181-216), one
recursive step per selected transform.  `B` is `x.shape[0]` of the input
to `augment` (the loop recomputes `idx = torch.arange(x.shape[0])` from it
each iteration), `n` is `len(selected_augmentations)`, and `k` is the
enumeration counter. -/
def augmentLoop (self : Augmenter) (B n : ℕ) : ℕ → List Transform →
    AugLoopState → Except String AugLoopState
  | _, [], s => .ok s
  | k, t :: rest, s =>
    let idx := if self.parallel_augment && self.parallel_augment_fixed_bs
      then fixedBsIdx B n k else List.range B
    match tIndex s.next_input idx with
    | .error e => .error e
    | .ok inp =>
      let outRes : Except String TOut :=
        if t.requiresLengths then
          match lIndex s.next_lengths idx with
          | .error e => .error e
          | .ok lin => .ok (t.apply inp (some lin))
        else .ok (t.apply inp none)
      match outRes with
      | .error e => .error e
      | .ok o =>
        match o with
        | .other =>
          .error "The function must return max two arguments (Tensor, Length[optional])"
        | .single ot =>
          match lIndex s.out_lengths idx with
          | .error e => .error e
          | .ok oli =>
            if self.parallel_augment then
              augmentLoop self B n (k + 1) rest
                { s with output := s.output ++ [ot],
                         output_lengths := s.output_lengths ++ [oli],
                         out := some ot }
            else
              augmentLoop self B n (k + 1) rest
                { s with next_input := ot, next_lengths := oli, out := some ot }
        | .pair ot ol =>
          match lIndex ol idx with
          | .error e => .error e
          | .ok oli =>
            if self.parallel_augment then
              augmentLoop self B n (k + 1) rest
                { s with output := s.output ++ [ot],
                         output_lengths := s.output_lengths ++ [oli],
                         out := some ot, out_lengths := ol }
            else
              augmentLoop self B n (k + 1) rest
                { s with next_input := ot, next_lengths := oli,
                         out := some ot, out_lengths := ol }

/-- `Augmenter.augment`: applies the selected transforms to `x` and
`lengths`.  After the loop, parallel mode concatenates the collected
outputs; sequential mode returns the last raw `out`/`out_lengths` (an
unbound `out` — empty selection — is a Python `NameError`). -/
def Augmenter.augment (self : Augmenter) (x : Tensor3) (lengths : List ℚ)
    (selected : List Transform) : Except String (Tensor3 × List ℚ) :=
  match augmentLoop self x.batch selected.length 0 selected
      ⟨x, lengths, [], [], none, lengths⟩ with
  | .error e => .error e
  | .ok s =>
    if self.parallel_augment then
      Augmenter.concatenate_outputs s.output s.output_lengths
    else
      match s.out with
      | some o => .ok (o, s.out_lengths)
      | none => .error "NameError: name out is not defined"

/-- Dictionary lookup `self.augmentations[augment_name]` for each selected
name; the generated names are modelled by positions in the transform list
(they are unique and in insertion order). -/
def resolveTransforms (ts : List Transform) : List ℕ → Except String (List Transform)
  | [] => .ok []
  | i :: rest =>
    match ts.get? i with
    | none => .error "KeyError"
    | some t =>
      match resolveTransforms ts rest with
      | .error e => .error e
      | .ok r => .ok (t :: r)

/-- The `for i in range(self.repeat_augment)` loop of `Augmenter.forward`:
one `augment` call per repetition, collecting `(output, output_lengths)`
pairs in order.  Per-repetition transform randomness is inside the
transforms' `apply` functions, over which the theorems quantify. -/
def repeatAugment (self : Augmenter) (x : Tensor3) (lengths : List ℚ)
    (selected : List Transform) : ℕ → Except String (List (Tensor3 × List ℚ))
  | 0 => .ok []
  | r + 1 =>
    match Augmenter.augment self x lengths selected with
    | .error e => .error e
    | .ok p =>
      match repeatAugment self x lengths selected r with
      | .error e => .error e
      | .ok ps => .ok (p :: ps)

/-- `Augmenter.forward(x, lengths)` (source lines 230-324).  The sampled
`N_augment` value is the explicit parameter `nDraw` (a valid draw satisfies
`min_augmentations ≤ nDraw ≤ max_augmentations`), and the post-shuffle key
order is the parameter `ord` (used only when `shuffle_augmentations`; a
valid value is a permutation of `List.range self.transforms.length`).
Returns the output pair together with the updated instance state; on a
raise, the partially updated instance state is discarded (no claim depends
on it). -/
def Augmenter.forward (self : Augmenter) (x : Tensor3) (lengths : List ℚ)
    (nDraw : ℕ) (ord : List ℕ) : Except String (Tensor3 × List ℚ × Augmenter) :=
  let st1 := if self.augment_end_index.isNone
    then { self with augment_end_index := some x.batch } else self
  if st1.augment_end_index.getD 0 > x.batch ∨ st1.augment_start_index > x.batch then
    .error "Augment_end_index must be smaller or equal than the batch size of the input signal x."
  else
    let st2 := if st1.concat_end_index.isNone
      then { st1 with concat_end_index := some x.batch } else st1
    if st2.concat_end_index.getD 0 > x.batch ∨ st2.concat_start_index > x.batch then
      .error "concat_end_index must be smaller or equal than the batch size of the input signal x"
    else
      let xa := sliceBatch x st2.augment_start_index (st2.augment_end_index.getD 0)
      let la := sliceLens lengths st2.augment_start_index (st2.augment_end_index.getD 0)
      let st3 := { st2 with N_augment := some nDraw }
      if st3.repeat_augment = 0 ∨ nDraw = 0 ∨ st3.transforms.length = 0 then
        .ok (xa, la, { st3 with num_augmentations := some 1 })
      else
        let lst := if st3.shuffle_augmentations then ord
          else List.range st3.transforms.length
        match resolveTransforms st3.transforms (lst.take nDraw) with
        | .error e => .error e
        | .ok selected =>
          let outs0 : List (Tensor3 × List ℚ) :=
            if st3.concat_original then
              [(sliceBatch x st3.concat_start_index (st3.concat_end_index.getD 0),
                sliceLens lengths st3.concat_start_index (st3.concat_end_index.getD 0))]
            else []
          match repeatAugment st3 xa la selected st3.repeat_augment with
          | .error e => .error e
          | .ok reps =>
            match Augmenter.concatenate_outputs ((outs0 ++ reps).map Prod.fst)
                ((outs0 ++ reps).map Prod.snd) with
            | .error e => .error e
            | .ok (o, ol) => .ok (o, ol, st3)

/-- `Augmenter.replicate_labels(labels)` (source lines 377-411), for a label
tensor modelled as a batch-indexed list.  Reads `self.N_augment` only in the
parallel branch (reading it before any `forward` call is a Python
`AttributeError`); `torch.cat` of an empty list raises. -/
def Augmenter.replicate_labels {α : Type} (self : Augmenter) (labels : List α) :
    Except String (List α) :=
  let base : List (List α) :=
    if self.concat_original then
      [sliceListOpt labels self.concat_start_index self.concat_end_index]
    else []
  let sel := sliceListOpt labels self.augment_start_index self.augment_end_index
  let selRes : Except String (List α) :=
    if self.parallel_augment then
      match self.N_augment with
      | none => .error "AttributeError: N_augment"
      | some n =>
        if n = 0 then .error "torch.cat(): expected a non-empty list of Tensors"
        else .ok (List.flatten (List.replicate n sel))
    else .ok sel
  match selRes with
  | .error e => .error e
  | .ok sel' =>
    let all := base ++ List.replicate self.repeat_augment sel'
    if all.isEmpty then .error "torch.cat(): expected a non-empty list of Tensors"
    else .ok all.flatten

/-- Configuration of `SpectrogramDrop` (`freq_domain.py` lines 15-85). -/
structure SpectrogramDrop where
  drop_length_low : ℕ := 5
  drop_length_high : ℕ := 15
  drop_count_low : ℕ := 1
  drop_count_high : ℕ := 3
  replace_with_zero : Bool := true
  dim : ℕ := 1

/-- Mean over all entries of a tensor (`spectrogram.mean()`). -/
def Tensor3.mean (x : Tensor3) : ℚ :=
  (((List.range x.batch).map (fun b =>
      ((List.range x.time).map (fun t =>
          ((List.range x.fea).map (fun f => x.data b t f)).sum)).sum)).sum)
    / ((x.batch * x.time * x.fea : ℕ) : ℚ)

/-- The sampled chunk mask of `SpectrogramDrop.forward` at batch index `b`
and masked-axis position `d`: position `d` is covered by some chunk `j`
among the `nMasks` sampled chunks, i.e. `mask_pos[b][j] <= d <
mask_pos[b][j] + mask_len[b][j]` (source line 145-146). -/
def dropMask (nMasks : ℕ) (maskLen maskPos : ℕ → ℕ → ℕ) (b d : ℕ) : Bool :=
  (List.range nMasks).any (fun j =>
    decide (maskPos b j ≤ d) && decide (d < maskPos b j + maskLen b j))

/-- `SpectrogramDrop.forward(spectrogram)` on a rank-3 `[batch, time, fea]`
input (rank-4 inputs are flattened to rank-3 by the source before this
point and not restored).  The sampled quantities are explicit parameters:
`nMasks` is the shared `torch.randint(drop_count_low, drop_count_high + 1,
(1,))` draw, and `maskLen b j` / `maskPos b j` are the per-example,
per-chunk draws from `torch.randint(drop_length_low, drop_length_high, ...)`
and `torch.randint(0, max(1, D, -mask_len.max()), ...)`.  Masked positions
are filled with `0.0` when `replace_with_zero`, else with the tensor mean;
`masked_fill_` and the final `view(*spectrogram.shape)` keep the shape. -/
def SpectrogramDrop.forward (self : SpectrogramDrop) (nMasks : ℕ)
    (maskLen maskPos : ℕ → ℕ → ℕ) (x : Tensor3) : Tensor3 :=
  let val : ℚ := if self.replace_with_zero then 0 else x.mean
  ⟨x.batch, x.time, x.fea, fun b t f =>
    if dropMask nMasks maskLen maskPos b (if self.dim = 1 then t else f)
    then val else x.data b t f⟩

/-- Configuration of `Warping` (`freq_domain.py` lines 158-204). -/
structure Warping where
  warp_window : ℕ := 5
  warp_mode : String := "bicubic"
  dim : ℕ := 1

/-- `spectrogram.transpose(1, 2)`: swaps the time and feature axes. -/
def transposeTF (x : Tensor3) : Tensor3 :=
  ⟨x.batch, x.fea, x.time, fun b t f => x.data b f t⟩

/-- `spectrogram[:, :c]`: the first `c` time frames. -/
def sliceTimeTo (x : Tensor3) (c : ℕ) : Tensor3 :=
  ⟨x.batch, min c x.time, x.fea, fun b t f => x.data b t f⟩

/-- `spectrogram[:, c:]`: the time frames from `c` on. -/
def sliceTimeFrom (x : Tensor3) (c : ℕ) : Tensor3 :=
  ⟨x.batch, x.time - c, x.fea, fun b t f => x.data b (c + t) f⟩

/-- `torch.nn.functional.interpolate(x, (newT, x.shape[3]), mode=...,
align_corners=True)` restricted to its documented shape contract: the
output has temporal extent `newT` and unchanged batch and feature extents.
The numeric values of bicubic interpolation are floating-point and outside
the exact model; the value rule used here is align-corners index
resampling, and no theorem below depends on the interpolated values. -/
def interpolateTime (x : Tensor3) (newT : ℕ) : Tensor3 :=
  ⟨x.batch, newT, x.fea, fun b t f =>
    x.data b (if newT ≤ 1 then 0 else t * (x.time - 1) / (newT - 1)) f⟩

/-- `Warping.forward(spectrogram)` on a rank-3 `[batch, time, fea]` input
(source lines 206-268).  With `dim=2` the input is first transposed and
`original_size` is recorded AFTER the transpose; the short-axis early
return (`len_original - window <= window`) returns `spectrogram.view(
*original_size)` without undoing the transpose.  The sampled center `c`
(`torch.randint(window, len_original - window, (1,))`) and raw width draw
`wDraw` (`torch.randint(c - window, c + window, (1,))`; the code adds 1)
are explicit parameters.  The interpolated left part (width `w`) and right
part (width `len_original - w`) are written back over the tensor, and with
`dim=2` the result is transposed back. -/
def Warping.forward (self : Warping) (c wDraw : ℕ) (x : Tensor3) : Tensor3 :=
  let sp := if self.dim = 2 then transposeTF x else x
  let window := self.warp_window
  let len_original := sp.time
  if len_original - window ≤ window then sp
  else
    let w := wDraw + 1
    let left := interpolateTime (sliceTimeTo sp c) w
    let right := interpolateTime (sliceTimeFrom sp c) (len_original - w)
    let warped : Tensor3 := ⟨sp.batch, len_original, sp.fea, fun b t f =>
      if t < w then left.data b t f else right.data b (t - w) f⟩
    if self.dim = 2 then transposeTF warped else warped

/-- The effective augment-window end used by `forward` on input `x`: the
configured `augment_end_index`, with `None` resolved to the batch size. -/
def augWindowEnd (self : Augmenter) (x : Tensor3) : ℕ :=
  self.augment_end_index.getD x.batch

/-- The effective concat-window end used by `forward` on input `x`. -/
def concatWindowEnd (self : Augmenter) (x : Tensor3) : ℕ :=
  self.concat_end_index.getD x.batch

/-- Instance state after `forward` has resolved the two `None` end indices
against batch size `b` (the in-place defaulting at source lines 244-245 and
256-257). -/
def resolveState (self : Augmenter) (b : ℕ) : Augmenter :=
  { self with augment_end_index := some (self.augment_end_index.getD b),
              concat_end_index := some (self.concat_end_index.getD b) }

/-- A transform that takes no lengths argument and returns its input as a
bare tensor (e.g. `SpectrogramDrop`-style transforms, with the identity as
the concrete value behaviour). -/
def idTransform : Transform := ⟨false, fun x _ => .single x⟩

/-- A transform that takes the lengths argument and returns the 2-tuple
`(input, lengths)` unchanged. -/
def passTransform : Transform := ⟨true, fun x l => .pair x (l.getD [])⟩

/-- Concrete batch of 2 examples (3 time frames, 1 feature). -/
def batch2Input : Tensor3 := ⟨2, 3, 1, fun b t _ => (b + t : ℚ)⟩

/-- Concrete batch of 4 examples (3 time frames, 1 feature). -/
def batch4Input : Tensor3 := ⟨4, 3, 1, fun b t _ => (b + t : ℚ)⟩

/-- Augmenter configured as in the C1 scenario: parallel fixed-batch-size
mode, exactly 2 augmentations, one repetition, no original concatenation. -/
def fixedBsAug : Augmenter :=
  { parallel_augment := true, parallel_augment_fixed_bs := true,
    concat_original := false, min_augmentations := 2, max_augmentations := 2,
    shuffle_augmentations := false, repeat_augment := 1,
    augment_start_index := 0, augment_end_index := none,
    concat_start_index := 0, concat_end_index := none,
    transforms := [idTransform, idTransform] }

/-- Augmenter in parallel fixed-batch-size mode whose transforms return
2-tuples (lengths-updating transforms). -/
def fixedBsPairAug : Augmenter :=
  { fixedBsAug with transforms := [passTransform, passTransform] }

/-- `Warping(dim=2)` with the default `warp_window=5`. -/
def freqWarp : Warping := { dim := 2 }

/-- A spectrogram `[1, 3, 8]` whose frequency axis is short relative to the
default warp window (`8 - 5 <= 5`). -/
def shortFreqSpec : Tensor3 := ⟨1, 3, 8, fun _ t f => (10 * t + f : ℚ)⟩

/-- A `[1, 5, 4]` tensor (temporal extent 5). -/
def time5Spec : Tensor3 := ⟨1, 5, 4, fun _ _ _ => 1⟩

/-- A `[1, 8, 4]` tensor (temporal extent 8). -/
def time8Spec : Tensor3 := ⟨1, 8, 4, fun _ _ _ => 2⟩

/-- `SpectrogramDrop()` with all-default parameters. -/
def dropDefault : SpectrogramDrop := {}

/-- Concrete `[2, 20, 6]` spectrogram with strictly positive entries. -/
def dropInput : Tensor3 := ⟨2, 20, 6, fun b t f => (b + t + f + 1 : ℚ)⟩

/-- Sequential augmenter with `repeat_augment=0` and a configured augment
window `[1, 3)`, used as the C2 witness configuration. -/
def noRepeatAug : Augmenter :=
  { parallel_augment := false, parallel_augment_fixed_bs := false,
    concat_original := false, min_augmentations := 1, max_augmentations := 1,
    shuffle_augmentations := false, repeat_augment := 0,
    augment_start_index := 1, augment_end_index := some 3,
    concat_start_index := 0, concat_end_index := none,
    transforms := [idTransform] }

/-- Augmenter whose configured `augment_end_index` (5) exceeds the batch
size of `batch4Input`, used as the C8 witness configuration. -/
def outOfBoundsAug : Augmenter :=
  { noRepeatAug with augment_end_index := some 5, repeat_augment := 1 }

/-- Augmenter with both end indices left as `None` and `repeat_augment=0`,
used as the C9 witness configuration. -/
def stickyAug : Augmenter :=
  { noRepeatAug with augment_start_index := 0, augment_end_index := none }

/-- Batch of 3 examples with the same time/feature extents as
`batch2Input`. -/
def batch3Input : Tensor3 := ⟨3, 3, 1, fun b t _ => (b + t : ℚ)⟩

/-- Batch of 1 example with the same time/feature extents as
`batch2Input`. -/
def batch1Input : Tensor3 := ⟨1, 3, 1, fun b t _ => (b + t : ℚ)⟩





/-- Helper: on the no-augmentation fast path (`repeat_augment == 0` or the
sampled `N_augment` is `0`), `forward` returns the augment-window slices
unchanged, together with the resolved instance state. -/
theorem forward_fastpath (self : Augmenter) (x : Tensor3) (lengths : List ℚ)
    (nDraw : ℕ) (ord : List ℕ)
    (hfast : self.repeat_augment = 0 ∨ nDraw = 0)
    (hae : augWindowEnd self x ≤ x.batch) (has : self.augment_start_index ≤ x.batch)
    (hce : concatWindowEnd self x ≤ x.batch) (hcs : self.concat_start_index ≤ x.batch) :
    Augmenter.forward self x lengths nDraw ord =
      .ok (sliceBatch x self.augment_start_index (augWindowEnd self x),
           sliceLens lengths self.augment_start_index (augWindowEnd self x),
           { resolveState self x.batch with
               N_augment := some nDraw, num_augmentations := some 1 }) := by
  unfold Augmenter.forward resolveState
  simp only [augWindowEnd] at hae ⊢
  simp only [concatWindowEnd] at hce
  have hpick : self.repeat_augment = 0 ∨ nDraw = 0 ∨ self.transforms.length = 0 := by
    rcases hfast with h | h
    · exact Or.inl h
    · exact Or.inr (Or.inl h)
  cases hA : self.augment_end_index <;> cases hC : self.concat_end_index <;>
    simp_all <;>
    (repeat rw [if_neg (by omega)])

/-- C2: for every input batch and lengths vector, with `repeat_augment = 0`,
or with an effective `max_augmentations = 0` (which forces every valid
`N_augment` draw to be `0`), `forward` returns exactly the augment-window
slice `x[augment_start_index : augment_end_index]` and the corresponding
lengths slice, values and lengths unchanged.  The bounds hypotheses say the
per-call index validation passes (otherwise `forward` raises instead). -/
theorem forward_no_augmentation_identity (self : Augmenter) (x : Tensor3)
    (lengths : List ℚ) (nDraw : ℕ) (ord : List ℕ)
    (hcfg : self.repeat_augment = 0 ∨ self.max_augmentations = 0)
    (hdraw : nDraw ≤ self.max_augmentations)
    (hae : augWindowEnd self x ≤ x.batch) (has : self.augment_start_index ≤ x.batch)
    (hce : concatWindowEnd self x ≤ x.batch) (hcs : self.concat_start_index ≤ x.batch) :
    ∃ st, Augmenter.forward self x lengths nDraw ord =
      .ok (sliceBatch x self.augment_start_index (augWindowEnd self x),
           sliceLens lengths self.augment_start_index (augWindowEnd self x), st) := by
  refine ⟨_, forward_fastpath self x lengths nDraw ord ?_ hae has hce hcs⟩
  rcases hcfg with h | h
  · exact Or.inl h
  · exact Or.inr (by omega)

/-- Witness for C2: `noRepeatAug` (`repeat_augment=0`, augment window
`[1, 3)`) on the concrete batch of 4 returns examples 1 and 2 with their
lengths, unchanged. -/
theorem forward_no_augmentation_identity_witness :
    ∃ st, Augmenter.forward noRepeatAug batch4Input [1, 1/2, 1/4, 1] 1 [] =
      .ok (sliceBatch batch4Input 1 3, sliceLens [1, 1/2, 1/4, 1] 1 3, st) :=
  forward_no_augmentation_identity noRepeatAug batch4Input [1, 1/2, 1/4, 1] 1 []
    (Or.inl rfl) (by decide) (by decide) (by decide) (by decide) (by decide)

/-- Helper: `forward` raises whenever any effective window index exceeds
the batch size of the current call's input, whatever the transforms,
draws, and shuffle order are. -/
theorem forward_bounds_raise (self : Augmenter) (x : Tensor3)
    (lengths : List ℚ) (nDraw : ℕ) (ord : List ℕ)
    (h : x.batch < augWindowEnd self x ∨ x.batch < self.augment_start_index ∨
         x.batch < concatWindowEnd self x ∨ x.batch < self.concat_start_index) :
    ∃ e, Augmenter.forward self x lengths nDraw ord = .error e := by
  unfold Augmenter.forward
  simp only [augWindowEnd] at h
  simp only [concatWindowEnd] at h
  cases hA : self.augment_end_index <;> cases hC : self.concat_end_index <;>
    simp_all <;> split_ifs <;> first | exact ⟨_, rfl⟩ | omega

/-- C8: on every call, if a configured augment or concat index (start, or
an effective end index) exceeds the current input's batch size, `forward`
raises.  The statement quantifies over every instance state — so the check
happens on every call regardless of history — and over every transform
list, draw, and shuffle order: the error does not depend on any transform,
i.e. it is raised before any transform is applied. -/
theorem forward_raises_on_out_of_bounds_index (self : Augmenter) (x : Tensor3)
    (lengths : List ℚ) (nDraw : ℕ) (ord : List ℕ)
    (h : x.batch < augWindowEnd self x ∨ x.batch < self.augment_start_index ∨
         x.batch < concatWindowEnd self x ∨ x.batch < self.concat_start_index) :
    ∃ e, Augmenter.forward self x lengths nDraw ord = .error e :=
  forward_bounds_raise self x lengths nDraw ord h

/-- Witness for C8: `outOfBoundsAug` has `augment_end_index = 5`, larger
than the batch size 4 of `batch4Input`, and `forward` errors. -/
theorem forward_raises_on_out_of_bounds_index_witness :
    ∃ e, Augmenter.forward outOfBoundsAug batch4Input [1, 1, 1, 1] 1 [] = .error e :=
  forward_raises_on_out_of_bounds_index outOfBoundsAug batch4Input [1, 1, 1, 1] 1 []
    (Or.inl (by decide))

/-- C9: starting from a state whose `augment_end_index` and
`concat_end_index` are `None`, the first `forward` call permanently
overwrites `augment_end_index` with that call's batch size; a later call
with a larger batch augments only the prefix `[start, first batch)` of it,
and a later call with a smaller batch raises the bounds error.  The
`repeat_augment = 0` hypothesis makes the augment window directly
observable as the returned value (the fast path returns the window slice);
the end-index resolution and checks at source lines 244-265 run before it
in every call. -/
theorem forward_none_end_index_is_sticky (self : Augmenter)
    (x1 x2 : Tensor3) (l1 l2 : List ℚ) (n1 n2 : ℕ) (o1 o2 : List ℕ)
    (hA : self.augment_end_index = none) (hC : self.concat_end_index = none)
    (has : self.augment_start_index ≤ x1.batch)
    (hcs : self.concat_start_index ≤ x1.batch)
    (hrep : self.repeat_augment = 0) :
    ∃ st1, Augmenter.forward self x1 l1 n1 o1 =
        .ok (sliceBatch x1 self.augment_start_index x1.batch,
             sliceLens l1 self.augment_start_index x1.batch, st1) ∧
      st1.augment_end_index = some x1.batch ∧
      (x1.batch < x2.batch →
        ∃ st2, Augmenter.forward st1 x2 l2 n2 o2 =
            .ok (sliceBatch x2 self.augment_start_index x1.batch,
                 sliceLens l2 self.augment_start_index x1.batch, st2) ∧
          st2.augment_end_index = some x1.batch) ∧
      (x2.batch < x1.batch →
        ∃ e, Augmenter.forward st1 x2 l2 n2 o2 = .error e) := by
  have hw1 : augWindowEnd self x1 = x1.batch := by
    simp [augWindowEnd, hA]
  have hc1 : concatWindowEnd self x1 = x1.batch := by
    simp [concatWindowEnd, hC]
  have h1 := forward_fastpath self x1 l1 n1 o1 (Or.inl hrep)
    (le_of_eq hw1) has (le_of_eq hc1) hcs
  rw [hw1] at h1
  refine ⟨_, h1, ?_, ?_, ?_⟩
  · simp [resolveState, hA]
  · intro hgrow
    have hw2 : augWindowEnd
        { resolveState self x1.batch with N_augment := some n1, num_augmentations := some 1 } x2 =
        x1.batch := by
      simp [augWindowEnd, resolveState, hA]
    have hc2 : concatWindowEnd
        { resolveState self x1.batch with N_augment := some n1, num_augmentations := some 1 } x2 =
        x1.batch := by
      simp [concatWindowEnd, resolveState, hC]
    have h2 := forward_fastpath
      { resolveState self x1.batch with N_augment := some n1, num_augmentations := some 1 }
      x2 l2 n2 o2 (Or.inl (by simp [resolveState, hrep]))
      (by rw [hw2]; omega) (by simp only [resolveState]; omega)
      (by rw [hc2]; omega) (by simp only [resolveState]; omega)
    rw [hw2] at h2
    refine ⟨_, h2, ?_⟩
    simp [resolveState, hA]
  · intro hshrink
    refine forward_bounds_raise _ x2 l2 n2 o2 ?_
    left
    simp only [augWindowEnd, resolveState, hA, Option.getD_some, Option.getD_none]
    omega

/-- Witness for C9: `stickyAug` (both end indices `None`) first called on a
batch of 2, then on a batch of 3 (only the prefix `[0, 2)` is windowed) and
on a batch of 1 (bounds error). -/
theorem forward_none_end_index_is_sticky_witness :
    (∃ st1, Augmenter.forward stickyAug batch2Input [1, 1] 1 [] =
        .ok (sliceBatch batch2Input 0 2, sliceLens [1, 1] 0 2, st1) ∧
      st1.augment_end_index = some 2 ∧
      (2 < 3 →
        ∃ st2, Augmenter.forward st1 batch3Input [1, 1, 1] 1 [] =
            .ok (sliceBatch batch3Input 0 2, sliceLens [1, 1, 1] 0 2, st2) ∧
          st2.augment_end_index = some 2) ∧
      (3 < 2 → ∃ e, Augmenter.forward st1 batch3Input [1, 1, 1] 1 [] = .error e)) ∧
    (∃ st1, Augmenter.forward stickyAug batch2Input [1, 1] 1 [] =
        .ok (sliceBatch batch2Input 0 2, sliceLens [1, 1] 0 2, st1) ∧
      st1.augment_end_index = some 2 ∧
      (2 < 1 →
        ∃ st2, Augmenter.forward st1 batch1Input [1] 1 [] =
            .ok (sliceBatch batch1Input 0 2, sliceLens [1] 0 2, st2) ∧
          st2.augment_end_index = some 2) ∧
      (1 < 2 → ∃ e, Augmenter.forward st1 batch1Input [1] 1 [] = .error e)) :=
  ⟨forward_none_end_index_is_sticky stickyAug batch2Input batch3Input
    [1, 1] [1, 1, 1] 1 1 [] [] rfl rfl (by decide) (by decide) rfl,
   forward_none_end_index_is_sticky stickyAug batch2Input batch1Input
    [1, 1] [1] 1 1 [] [] rfl rfl (by decide) (by decide) rfl⟩

/-- C1 (refuted): with `parallel_augment=True` and
`parallel_augment_fixed_bs=True`, 2 transforms, `N_augment = 2`,
`repeat_augment = 1`, `forward` on a batch of 2 returns a batch of 2 (each
transform processes its half of the partition), but `replicate_labels` on a
matching label tensor of batch 2 returns batch 4: it tiles the window
`N_augment` times whenever `parallel_augment` is set, ignoring
`parallel_augment_fixed_bs`. -/
theorem replicate_labels_fixed_bs_batch_mismatch :
    ∃ t l st, Augmenter.forward fixedBsAug batch2Input [1, 1] 2 [] = .ok (t, l, st) ∧
      t.batch = 2 ∧
      ∃ labs, Augmenter.replicate_labels st ([10, 20] : List ℤ) = .ok labs ∧
        labs.length = 4 := by
  exact ⟨_, _, _, rfl, rfl, _, rfl, rfl⟩

/-- C3 (refuted for `dim=2`): `Warping(dim=2)` with the default window 5 on
a `[1, 3, 8]` spectrogram takes the short-axis early return (`8 - 5 <= 5`)
AFTER transposing but BEFORE the transpose-back, so it returns the
transposed tensor of shape `[1, 8, 3]` instead of the unchanged input of
shape `[1, 3, 8]`. -/
theorem warping_dim2_short_axis_returns_transposed :
    Warping.forward freqWarp 0 0 shortFreqSpec = transposeTF shortFreqSpec ∧
      (Warping.forward freqWarp 0 0 shortFreqSpec).time = 8 ∧
      shortFreqSpec.time = 3 :=
  ⟨rfl, rfl, rfl⟩

/-- C4 (refuted for fixed-batch-size parallel mode): with
`parallel_augment=True`, `parallel_augment_fixed_bs=True` and two selected
transforms that return 2-tuples, on a batch of 4 the second transform
processes partition indices `[2, 3]` and returns a length vector of size 2,
which the code then indexes as `out_lengths[idx]` with the absolute indices
`[2, 3]` — out of bounds. -/
theorem augment_fixed_bs_pair_lengths_out_of_bounds :
    Augmenter.augment fixedBsPairAug batch4Input [1, 1, 1, 1]
      [passTransform, passTransform] = .error "index out of bounds" :=
  rfl

/-- C5 (refuted for rank-3 tensors): `concatenate_outputs` on tensors of
temporal extents 5 and 8 pads with `F.pad(output, (0, max_len - shape[1]))`,
which pads the LAST (feature) axis — the `[1, 5, 4]` tensor becomes
`[1, 5, 7]`, its temporal axis untouched — and the subsequent
`torch.cat(dim=0)` of mismatched shapes raises. -/
theorem concatenate_outputs_pads_feature_axis :
    Augmenter.concatenate_outputs [time5Spec, time8Spec] [[1], [1]] =
        .error "Sizes of tensors must match except in dimension 0" ∧
      (padLast time5Spec (8 - time5Spec.time)).time = 5 ∧
      (padLast time5Spec (8 - time5Spec.time)).fea = 7 :=
  ⟨rfl, rfl, rfl⟩

/-- C6: `SpectrogramDrop.forward` never changes the tensor's shape, and
with `replace_with_zero=True` every position covered by any sampled chunk
along the masked axis is `0` in the output.  (All values share one numeric
type in the model; in the source the in-place `masked_fill_` trivially
preserves the dtype.) -/
theorem spectrogram_drop_shape_and_zero_mask (self : SpectrogramDrop)
    (nMasks : ℕ) (maskLen maskPos : ℕ → ℕ → ℕ) (x : Tensor3)
    (hz : self.replace_with_zero = true) :
    (SpectrogramDrop.forward self nMasks maskLen maskPos x).batch = x.batch ∧
    (SpectrogramDrop.forward self nMasks maskLen maskPos x).time = x.time ∧
    (SpectrogramDrop.forward self nMasks maskLen maskPos x).fea = x.fea ∧
    ∀ b t f, dropMask nMasks maskLen maskPos b (if self.dim = 1 then t else f) = true →
      (SpectrogramDrop.forward self nMasks maskLen maskPos x).data b t f = 0 := by
  refine ⟨rfl, rfl, rfl, ?_⟩
  intro b t f h
  simp [SpectrogramDrop.forward, h, hz]

/-- Witness for C6: the default `SpectrogramDrop` with 2 sampled chunks of
length 6 starting at position 3 zeroes time position 5 of the concrete
strictly positive `[2, 20, 6]` spectrogram and keeps its shape. -/
theorem spectrogram_drop_shape_and_zero_mask_witness :
    dropDefault.replace_with_zero = true ∧
    (SpectrogramDrop.forward dropDefault 2 (fun _ _ => 6) (fun _ _ => 3) dropInput).batch = 2 ∧
    (SpectrogramDrop.forward dropDefault 2 (fun _ _ => 6) (fun _ _ => 3) dropInput).time = 20 ∧
    (SpectrogramDrop.forward dropDefault 2 (fun _ _ => 6) (fun _ _ => 3) dropInput).fea = 6 ∧
    (SpectrogramDrop.forward dropDefault 2 (fun _ _ => 6) (fun _ _ => 3) dropInput).data 0 5 0 = 0 :=
  ⟨rfl,
   (spectrogram_drop_shape_and_zero_mask dropDefault 2 (fun _ _ => 6) (fun _ _ => 3)
      dropInput rfl).1,
   (spectrogram_drop_shape_and_zero_mask dropDefault 2 (fun _ _ => 6) (fun _ _ => 3)
      dropInput rfl).2.1,
   (spectrogram_drop_shape_and_zero_mask dropDefault 2 (fun _ _ => 6) (fun _ _ => 3)
      dropInput rfl).2.2.1,
   (spectrogram_drop_shape_and_zero_mask dropDefault 2 (fun _ _ => 6) (fun _ _ => 3)
      dropInput rfl).2.2.2 0 5 0 (by decide)⟩

/-- Helper: a drop-then-take slice of `List.range` is an arithmetic
progression with step 1. -/
theorem dropTakeRange (B p q : ℕ) :
    ((List.range B).drop p).take q = List.range' p (min q (B - p)) := by
  apply List.ext_getElem
  · simp
  · intro i h1 h2
    simp only [List.getElem_take, List.getElem_drop, List.getElem_range, List.getElem_range']
    omega

/-- Helper: the linspace boundaries are monotone in the boundary index. -/
theorem fixedBsBound_mono (B n : ℕ) : Monotone (fixedBsBound B n) := by
  intro i j hij
  exact Nat.div_le_div_right (Nat.mul_le_mul_right B hij)

/-- Helper: every linspace boundary for an index up to `n` is at most `B`. -/
theorem fixedBsBound_le (B n k : ℕ) (h : k ≤ n) : fixedBsBound B n k ≤ B := by
  unfold fixedBsBound
  cases n with
  | zero =>
    interval_cases k
    simp
  | succ m =>
    calc k * B / (m + 1) ≤ (m + 1) * B / (m + 1) :=
          Nat.div_le_div_right (Nat.mul_le_mul_right B h)
      _ = B := Nat.mul_div_cancel_left B (Nat.succ_pos m)

/-- Helper: membership in the `k`-th partition is exactly the half-open
boundary interval. -/
theorem mem_fixedBsIdx {B n k a : ℕ} (hk : k < n) :
    a ∈ fixedBsIdx B n k ↔
      fixedBsBound B n k ≤ a ∧ a < fixedBsBound B n (k + 1) := by
  have hmono := fixedBsBound_mono B n (Nat.le_succ k)
  have hle := fixedBsBound_le B n (k + 1) hk
  unfold fixedBsIdx
  rw [dropTakeRange, List.mem_range'_1]
  omega

/-- Helper: the size of the `k`-th partition is the difference of its two
boundaries. -/
theorem fixedBsIdx_length {B n k : ℕ} (hk : k < n) :
    (fixedBsIdx B n k).length = fixedBsBound B n (k + 1) - fixedBsBound B n k := by
  have hle := fixedBsBound_le B n (k + 1) hk
  unfold fixedBsIdx
  rw [dropTakeRange, List.length_range']
  omega

/-- Helper: the partition sizes telescope to the full batch size. -/
theorem fixedBsIdx_length_sum (B n : ℕ) (hn : 1 ≤ n) :
    ∑ k ∈ Finset.range n, (fixedBsIdx B n k).length = B := by
  have h1 : ∀ k ∈ Finset.range n, (fixedBsIdx B n k).length
      = fixedBsBound B n (k + 1) - fixedBsBound B n k := fun k hk =>
    fixedBsIdx_length (Finset.mem_range.mp hk)
  rw [Finset.sum_congr rfl h1, Finset.sum_range_tsub (fixedBsBound_mono B n)]
  unfold fixedBsBound
  rw [Nat.mul_div_cancel_left _ (by omega : 0 < n)]
  simp

/-- Helper: distinct partitions are disjoint. -/
theorem fixedBsIdx_disjoint {B n i j a : ℕ} (hi : i < n) (hj : j < n)
    (hij : i ≠ j) (hai : a ∈ fixedBsIdx B n i) (haj : a ∈ fixedBsIdx B n j) :
    False := by
  rw [mem_fixedBsIdx hi] at hai
  rw [mem_fixedBsIdx hj] at haj
  rcases Nat.lt_or_ge i j with h | h
  · have := fixedBsBound_mono B n (show i + 1 ≤ j from h)
    omega
  · have hji : j < i := by omega
    have := fixedBsBound_mono B n (show j + 1 ≤ i from hji)
    omega

/-- Helper: every element of a partition is a valid batch index. -/
theorem fixedBsIdx_all_lt {B n k : ℕ} (hk : k < n) :
    (fixedBsIdx B n k).all (· < B) = true := by
  rw [List.all_eq_true]
  intro a ha
  have h1 := (mem_fixedBsIdx hk).mp ha
  have h2 := fixedBsBound_le B n (k + 1) hk
  simp only [decide_eq_true_eq]
  omega

/-- Helper: folding `max` over a constant list starting from `0`. -/
theorem foldl_max_const {T : ℕ} :
    ∀ (l : List ℕ) (acc : ℕ), (∀ y ∈ l, y = T) → l ≠ [] → l.foldl max acc = max acc T := by
  intro l
  induction l with
  | nil => intro acc _ h; exact absurd rfl h
  | cons hd tl ih =>
    intro acc hall _
    have hhd : hd = T := hall hd (by simp)
    show List.foldl max (max acc hd) tl = max acc T
    rcases eq_or_ne tl [] with htl | htl
    · subst htl
      simp [hhd]
    · rw [ih (max acc hd) (fun y hy => hall y (by simp [hy])) htl, hhd, max_assoc, max_self]

/-- Helper: `torch.cat(dim=0)` of a non-empty list of equal-shape tensors
succeeds and its batch size is the sum of the batch sizes. -/
theorem catBatch_uniform {T Fe : ℕ} :
    ∀ (lst : List Tensor3), lst ≠ [] → (∀ o ∈ lst, o.time = T ∧ o.fea = Fe) →
    ∃ out, catBatch lst = .ok out ∧ out.batch = (lst.map Tensor3.batch).sum ∧
      out.time = T ∧ out.fea = Fe := by
  intro lst
  induction lst with
  | nil => intro h; exact absurd rfl h
  | cons x rest ih =>
    intro _ hall
    cases hr : rest with
    | nil =>
      subst hr
      exact ⟨x, rfl, by simp, (hall x (by simp)).1, (hall x (by simp)).2⟩
    | cons y tl =>
      subst hr
      obtain ⟨r, hrOk, hrB, hrT, hrF⟩ :=
        ih (by simp) (fun o ho => hall o (by simp [ho]))
      have hx := hall x (by simp)
      have hstep : catBatch (x :: y :: tl) = catBatch2 x r := by
        show (match catBatch (y :: tl) with
          | Except.error e => Except.error e
          | Except.ok rr => catBatch2 x rr) = catBatch2 x r
        rw [hrOk]
      refine ⟨⟨x.batch + r.batch, x.time, x.fea,
        fun i t f => if i < x.batch then x.data i t f else r.data (i - x.batch) t f⟩,
        ?_, by simp [hrB], hx.1, hx.2⟩
      rw [hstep]
      unfold catBatch2
      rw [if_pos ⟨by rw [hx.1, hrT], by rw [hx.2, hrF]⟩]

/-- Helper: `concatenate_outputs` on a non-empty list of equal-shape tensors
with positive temporal extent succeeds, with output batch size the sum of
the input batch sizes. -/
theorem concatenate_outputs_uniform {T Fe : ℕ} (hT : 0 < T)
    (lst : List Tensor3) (lens : List (List ℚ)) (hne : lst ≠ [])
    (hall : ∀ o ∈ lst, o.time = T ∧ o.fea = Fe) :
    ∃ out ol, Augmenter.concatenate_outputs lst lens = .ok (out, ol) ∧
      out.batch = (lst.map Tensor3.batch).sum := by
  obtain ⟨x, rest, rfl⟩ : ∃ x rest, lst = x :: rest := by
    cases lst with
    | nil => exact absurd rfl hne
    | cons x rest => exact ⟨x, rest, rfl⟩
  have hmap : ∀ y ∈ (x :: rest).map Tensor3.time, y = T := by
    intro y hy
    rw [List.mem_map] at hy
    obtain ⟨o, ho, rfl⟩ := hy
    exact (hall o ho).1
  have hmax : ((x :: rest).map Tensor3.time).foldl max 0 = T := by
    rw [foldl_max_const _ 0 hmap (by simp)]
    simp
  have hpadded : ∀ p ∈ (x :: rest).map (fun o => padLast o (T - o.time)),
      p.time = T ∧ p.fea = Fe := by
    intro p hp
    rw [List.mem_map] at hp
    obtain ⟨o, ho, rfl⟩ := hp
    have h2 := hall o ho
    refine ⟨h2.1, ?_⟩
    show o.fea + (T - o.time) = Fe
    rw [h2.1, h2.2]
    simp
  obtain ⟨out, hcat, hB, _, _⟩ :=
    catBatch_uniform ((x :: rest).map (fun o => padLast o (T - o.time))) (by simp) hpadded
  have hbatch : out.batch = ((x :: rest).map Tensor3.batch).sum := by
    rw [hB, List.map_map]
    congr 1
  refine ⟨out, ((lens.zip (x :: rest)).map
    (fun p => p.1.map (fun v => v * ((p.2.time : ℚ) / (T : ℚ))))).flatten, ?_, hbatch⟩
  simp only [Augmenter.concatenate_outputs]
  simp only [hmax]
  rw [if_neg (by omega), hcat]

/-- Helper: the `augment` loop in parallel fixed-batch-size mode, over
transforms that return a bare tensor of their input's shape, succeeds and
appends one output per transform whose batch size is its partition's
size. -/
theorem augmentLoop_parallel_fixed (self : Augmenter)
    (hp : self.parallel_augment = true) (hf : self.parallel_augment_fixed_bs = true)
    (x : Tensor3) (l : List ℚ) (hl : l.length = x.batch) (n : ℕ) :
    ∀ (ts : List Transform) (k : ℕ) (s : AugLoopState),
      k + ts.length ≤ n →
      (∀ t ∈ ts, ∀ inp olen, ∃ d, t.apply inp olen =
        TOut.single ⟨inp.batch, inp.time, inp.fea, d⟩) →
      s.next_input = x → s.next_lengths = l → s.out_lengths = l →
      (∀ o ∈ s.output, o.time = x.time ∧ o.fea = x.fea) →
      ∃ s', augmentLoop self x.batch n k ts s = .ok s' ∧
        (s'.output.map Tensor3.batch).sum =
          (s.output.map Tensor3.batch).sum +
            (fixedBsBound x.batch n (k + ts.length) - fixedBsBound x.batch n k) ∧
        s'.output.length = s.output.length + ts.length ∧
        (∀ o ∈ s'.output, o.time = x.time ∧ o.fea = x.fea) := by
  intro ts
  induction ts with
  | nil =>
    intro k s _ _ _ _ _ hout
    exact ⟨s, rfl, by simp, by simp, hout⟩
  | cons t rest ih =>
    intro k s hkn hts hni hnl hol hout
    have hk : k < n := by
      simp only [List.length_cons] at hkn
      omega
    have hall : (fixedBsIdx x.batch n k).all (· < x.batch) = true := fixedBsIdx_all_lt hk
    have hallL : (fixedBsIdx x.batch n k).all (· < l.length) = true := by
      rw [hl]
      exact hall
    have hlen : (fixedBsIdx x.batch n k).length =
        fixedBsBound x.batch n (k + 1) - fixedBsBound x.batch n k := fixedBsIdx_length hk
    have htI : tIndex x (fixedBsIdx x.batch n k) =
        .ok ⟨(fixedBsIdx x.batch n k).length, x.time, x.fea,
          fun i tt ff => x.data ((fixedBsIdx x.batch n k).getD i 0) tt ff⟩ := by
      unfold tIndex
      rw [if_pos hall]
    have hlI : lIndex l (fixedBsIdx x.batch n k) =
        .ok ((fixedBsIdx x.batch n k).map (fun i => l.getD i 0)) := by
      unfold lIndex
      rw [if_pos hallL]
    obtain ⟨d, happly⟩ := hts t (by simp)
      ⟨(fixedBsIdx x.batch n k).length, x.time, x.fea,
        fun i tt ff => x.data ((fixedBsIdx x.batch n k).getD i 0) tt ff⟩
      (if t.requiresLengths then
        some ((fixedBsIdx x.batch n k).map (fun i => l.getD i 0)) else none)
    simp only [augmentLoop, hp, hf, Bool.and_self, if_true, hni, hnl, hol, htI, hlI]
    cases hreq : t.requiresLengths
    case false =>
      rw [hreq] at happly
      rw [if_neg Bool.false_ne_true] at happly
      simp only [hreq, Bool.false_eq_true, if_false, happly]
      obtain ⟨s', hloop, hsum, hlen2, hout2⟩ := ih (k + 1)
        { next_input := x, next_lengths := l,
          output := s.output ++ [⟨(fixedBsIdx x.batch n k).length, x.time, x.fea, d⟩],
          output_lengths := s.output_lengths ++
            [(fixedBsIdx x.batch n k).map (fun i => l.getD i 0)],
          out := some ⟨(fixedBsIdx x.batch n k).length, x.time, x.fea, d⟩,
          out_lengths := l }
        (by simp only [List.length_cons] at hkn; omega)
        (fun t' ht' inp olen => hts t' (List.mem_cons_of_mem t ht') inp olen)
        rfl rfl rfl
        (by
          intro o ho
          rw [List.mem_append] at ho
          rcases ho with ho | ho
          · exact hout o ho
          · rw [List.mem_singleton] at ho
            subst ho
            exact ⟨rfl, rfl⟩)
      dsimp only at hsum hlen2
      refine ⟨s', hloop, ?_, ?_, hout2⟩
      · rw [hsum]
        simp only [List.map_append, List.map_cons, List.map_nil, List.sum_append,
          List.sum_cons, List.sum_nil, List.length_cons]
        rw [hlen]
        have h1 := fixedBsBound_mono x.batch n (show k ≤ k + 1 by omega)
        have h2 := fixedBsBound_mono x.batch n
          (show k + 1 ≤ k + 1 + rest.length by omega)
        rw [show k + (rest.length + 1) = k + 1 + rest.length from by omega]
        omega
      · rw [hlen2]
        simp only [List.length_append, List.length_cons, List.length_nil]
        omega
    case true =>
      rw [hreq] at happly
      rw [if_pos rfl] at happly
      simp only [hreq, eq_self_iff_true, if_true, happly]
      obtain ⟨s', hloop, hsum, hlen2, hout2⟩ := ih (k + 1)
        { next_input := x, next_lengths := l,
          output := s.output ++ [⟨(fixedBsIdx x.batch n k).length, x.time, x.fea, d⟩],
          output_lengths := s.output_lengths ++
            [(fixedBsIdx x.batch n k).map (fun i => l.getD i 0)],
          out := some ⟨(fixedBsIdx x.batch n k).length, x.time, x.fea, d⟩,
          out_lengths := l }
        (by simp only [List.length_cons] at hkn; omega)
        (fun t' ht' inp olen => hts t' (List.mem_cons_of_mem t ht') inp olen)
        rfl rfl rfl
        (by
          intro o ho
          rw [List.mem_append] at ho
          rcases ho with ho | ho
          · exact hout o ho
          · rw [List.mem_singleton] at ho
            subst ho
            exact ⟨rfl, rfl⟩)
      dsimp only at hsum hlen2
      refine ⟨s', hloop, ?_, ?_, hout2⟩
      · rw [hsum]
        simp only [List.map_append, List.map_cons, List.map_nil, List.sum_append,
          List.sum_cons, List.sum_nil, List.length_cons]
        rw [hlen]
        have h1 := fixedBsBound_mono x.batch n (show k ≤ k + 1 by omega)
        have h2 := fixedBsBound_mono x.batch n
          (show k + 1 ≤ k + 1 + rest.length by omega)
        rw [show k + (rest.length + 1) = k + 1 + rest.length from by omega]
        omega
      · rw [hlen2]
        simp only [List.length_append, List.length_cons, List.length_nil]
        omega

/-- Helper: `augment` in parallel fixed-batch-size mode with shape-preserving
bare-tensor transforms succeeds and returns a batch of the same size as its
input: the partition sizes add back up to the full window. -/
theorem augment_parallel_fixed_batch (self : Augmenter)
    (hp : self.parallel_augment = true) (hf : self.parallel_augment_fixed_bs = true)
    (x : Tensor3) (l : List ℚ) (ts : List Transform)
    (hl : l.length = x.batch) (hts1 : 1 ≤ ts.length) (hT : 0 < x.time)
    (hts : ∀ t ∈ ts, ∀ inp olen, ∃ d, t.apply inp olen =
      TOut.single ⟨inp.batch, inp.time, inp.fea, d⟩) :
    ∃ out ol, Augmenter.augment self x l ts = .ok (out, ol) ∧ out.batch = x.batch := by
  obtain ⟨s', hloop, hsum, hlen2, hout2⟩ :=
    augmentLoop_parallel_fixed self hp hf x l hl ts.length ts 0 ⟨x, l, [], [], none, l⟩
      (by omega) hts rfl rfl rfl (by intro o ho; simp at ho)
  dsimp only at hsum hlen2
  have hsum' : (s'.output.map Tensor3.batch).sum = x.batch := by
    rw [hsum]
    simp only [List.map_nil, List.sum_nil, Nat.zero_add]
    unfold fixedBsBound
    rw [Nat.mul_div_cancel_left _ (show 0 < ts.length by omega)]
    simp
  have hne : s'.output ≠ [] := by
    intro hemp
    rw [hemp] at hlen2
    simp at hlen2
    omega
  obtain ⟨out, ol, hc, hb⟩ :=
    concatenate_outputs_uniform hT s'.output s'.output_lengths hne hout2
  refine ⟨out, ol, ?_, by rw [hb, hsum']⟩
  unfold Augmenter.augment
  rw [hloop]
  simp only [hp, eq_self_iff_true, if_true]
  exact hc

/-- C7: with `parallel_augment=True` and `parallel_augment_fixed_bs=True`,
the contiguous partitions computed from the evenly spaced boundary indices
spanning `[0, B]` cover distinct index ranges (non-overlapping) and their
sizes sum to `B` — and therefore, for every augment call with `k ≥ 1`
selected shape-preserving transforms (each returning a bare tensor of its
input's shape), the augmentation contribution to the batch is exactly `B`
per repetition. -/
theorem fixed_bs_partitions_sum_to_batch :
    (∀ B n, 1 ≤ n →
      (∑ k ∈ Finset.range n, (fixedBsIdx B n k).length) = B ∧
      ∀ i j a, i < n → j < n → i ≠ j → a ∈ fixedBsIdx B n i →
        a ∉ fixedBsIdx B n j) ∧
    (∀ (self : Augmenter) (x : Tensor3) (l : List ℚ) (ts : List Transform),
      self.parallel_augment = true → self.parallel_augment_fixed_bs = true →
      l.length = x.batch → 1 ≤ ts.length → 0 < x.time →
      (∀ t ∈ ts, ∀ inp olen, ∃ d, t.apply inp olen =
        TOut.single ⟨inp.batch, inp.time, inp.fea, d⟩) →
      ∃ out ol, Augmenter.augment self x l ts = .ok (out, ol) ∧
        out.batch = x.batch) := by
  constructor
  · intro B n hn
    exact ⟨fixedBsIdx_length_sum B n hn,
      fun i j a hi hj hij hai haj => fixedBsIdx_disjoint hi hj hij hai haj⟩
  · intro self x l ts hp hf hl h1 hT hts
    exact augment_parallel_fixed_batch self hp hf x l ts hl h1 hT hts

/-- Witness for C7: with `B = 4` and `n = 2` the partition sizes sum to 4,
and the concrete fixed-batch-size augmenter with two identity transforms
on a batch of 2 returns a batch of 2. -/
theorem fixed_bs_partitions_sum_to_batch_witness :
    (∑ k ∈ Finset.range 2, (fixedBsIdx 4 2 k).length) = 4 ∧
    ∃ out ol, Augmenter.augment fixedBsAug batch2Input [1, 1]
      [idTransform, idTransform] = .ok (out, ol) ∧ out.batch = 2 :=
  ⟨(fixed_bs_partitions_sum_to_batch.1 4 2 (by decide)).1,
   fixed_bs_partitions_sum_to_batch.2 fixedBsAug batch2Input [1, 1]
     [idTransform, idTransform] rfl rfl rfl (by decide) (by decide)
     (fun t ht inp olen => by
       have hid : t = idTransform := by
         rcases List.mem_cons.mp ht with h | h
         · exact h
         · simpa using h
       subst hid
       exact ⟨inp.data, rfl⟩)⟩
